import Mathlib

/-!
A verification development for the PixelServe caching core
(`src/services/cache.ts`, `src/config.ts`).

The TypeScript source is shallowly embedded: JavaScript `Map`s become
insertion-ordered association lists, `Buffer`s become lists of bytes,
timestamps (`Date.now()`, file mtimes) become explicit integer
millisecond arguments, and the process-wide `config` object becomes an
explicit record threaded through the functions that read it.
-/

namespace PixelServe

/-! ## JavaScript values appearing in cache-key parameter sets

`generateCacheKey` takes a `Record<string, string | number | boolean |
undefined>`.  Numbers are modelled as integers: every numeric parameter
of this service (widths, heights, quality, ...) is integral, and
JavaScript renders integral numbers in plain decimal, as `Int.repr`
does. -/

inductive JSValue where
  | str (s : String)
  | num (n : Int)
  | bool (b : Bool)
  | undef
deriving DecidableEq, Repr

/-- The string a JavaScript template literal `${v}` produces for a
defined value (strings verbatim, numbers in decimal, booleans as
`true`/`false`). -/
def JSValue.render : JSValue → String
  | .str s => s
  | .num n => toString n
  | .bool b => if b then "true" else "false"
  | .undef => "undefined"

/-- A parameter set: `Object.entries` of the record, i.e. the fields in
insertion order.  JavaScript objects cannot hold two fields of the same
name, so the field names of any list produced this way are distinct. -/
abbrev ParamSet := List (String × JSValue)

/-! ## A model of `String.prototype.localeCompare`

`generateCacheKey` sorts field names with `a.localeCompare(b)`, the
ICU root collation.  Modelled for ASCII strings: letters compare
case-insensitively at primary strength (by base letter), and case is
the tiebreaker with lowercase ordered first, exactly ICU's behaviour on
ASCII alphanumeric strings.  The
model compares the primary weights of the two strings lexicographically
and falls back to the tiebreaker weights, via a single flattened weight
list separated by a sentinel `0` that no character's weight can take. -/

/-- Primary collation weight: uppercase folds onto its lowercase
counterpart; the `+ 1` keeps every weight positive, clear of the
sentinel `0`. -/
def collPrim (c : Char) : Nat :=
  (if 65 ≤ c.toNat ∧ c.toNat ≤ 90 then c.toNat + 32 else c.toNat) + 1

/-- Tiebreaker collation weight: lowercase (and everything that is not
an ASCII capital) before uppercase. -/
def collTert (c : Char) : Nat :=
  if 65 ≤ c.toNat ∧ c.toNat ≤ 90 then 2 else 1

/-- Flattened collation key: primary weights, a sentinel, then
tiebreaker weights. -/
def collKey (s : String) : List Nat :=
  s.data.map collPrim ++ 0 :: s.data.map collTert

/-- Lexicographic comparison of weight lists. -/
def lexComp : List Nat → List Nat → Ordering
  | [], [] => .eq
  | [], _ :: _ => .lt
  | _ :: _, [] => .gt
  | a :: as, b :: bs =>
    if a < b then .lt else if b < a then .gt else lexComp as bs

/-- Model of `a.localeCompare(b)` (ICU root collation restricted to
ASCII, see above): negative, zero or positive. -/
def localeCompare (a b : String) : Int :=
  match lexComp (collKey a) (collKey b) with
  | .lt => -1
  | .eq => 0
  | .gt => 1

/-- The order the comparator `(a, b) => a.localeCompare(b)` sorts
into: `a` may sit before `b` iff the comparator is non-positive. -/
def lcLe (a b : String) : Prop := localeCompare a b ≤ 0

instance : DecidableRel lcLe := fun a b => Int.decLe _ _

/-- The sort in `generateCacheKey` orders entries by applying the
comparator to their field names: `.sort(([a], [b]) => a.localeCompare(b))`. -/
def entryLe (p q : String × JSValue) : Prop := lcLe p.1 q.1

instance : DecidableRel entryLe := fun p q => Int.decLe _ _

/-! ## The fingerprint generator (`generateCacheKey`) -/

/-- The `.filter(([, v]) => v !== undefined)` step. -/
def definedEntries (params : ParamSet) : ParamSet :=
  params.filter (fun e => e.2 ≠ JSValue.undef)

/-- The `.map(([k, v]) => `${k}=${v}`)` step for one entry. -/
def entryString (e : String × JSValue) : String :=
  e.1 ++ "=" ++ e.2.render

/-- The string `generateCacheKey` feeds to SHA-256: drop undefined
values, sort by the `localeCompare` comparator, render `k=v` pairs,
join with `&`.  (JavaScript's `Array.prototype.sort` is modelled by
insertion sort; the comparator has no ties between distinct names, so
any comparison sort produces this list.) -/
def serializeParams (params : ParamSet) : String :=
  String.intercalate "&"
    (((definedEntries params).insertionSort entryLe).map entryString)

/-- `generateCacheKey`: the SHA-256 hex digest of the serialization.
`createHash("sha256")` comes from `node:crypto`, outside this
repository; the digest is therefore an arbitrary function parameter —
every property proved here holds for any choice of it. -/
def generateCacheKey (sha256hex : String → String) (params : ParamSet) : String :=
  sha256hex (serializeParams params)

/-! ### The spec's reading of the serialization (byte-wise sort)

The spec claims the field names are sorted "byte-wise ascending,
case-sensitive".  `specSerialize` follows those words, for comparison
with `serializeParams` above, which follows the source. -/

/-- Byte-wise lexicographic comparison of two strings (UTF-8 code
points ascending, case-sensitive). -/
def byteCmp (a b : String) : Ordering :=
  lexComp (a.data.map Char.toNat) (b.data.map Char.toNat)

/-- Byte-wise "may sit before": not greater. -/
def byteLe (a b : String) : Prop := byteCmp a b ≠ .gt

instance : DecidableRel byteLe := fun a b => instDecidableNot

/-- Entry order induced by byte-wise comparison of field names. -/
def specEntryLe (p q : String × JSValue) : Prop := byteLe p.1 q.1

instance : DecidableRel specEntryLe := fun p q => instDecidableNot

/-- The serialization as the spec words it: drop undefined values, sort
the field names byte-wise ascending, render `k=v`, join with `&`. -/
def specSerialize (params : ParamSet) : String :=
  String.intercalate "&"
    (((definedEntries params).insertionSort specEntryLe).map entryString)

/-- Field names made of lowercase ASCII letters and digits.  On such
names the modelled ICU collation and byte-wise comparison coincide.
Not every parameter name this service sends to `generateCacheKey` has
this shape: the OG route also passes camelCase names (`titleColor`,
`descColor`, `accentColor`) and the image route `wm_`-prefixed
watermark names, which carry no such guarantee. -/
def plainChar (c : Char) : Prop :=
  (97 ≤ c.toNat ∧ c.toNat ≤ 122) ∨ (48 ≤ c.toNat ∧ c.toNat ≤ 57)

instance (c : Char) : Decidable (plainChar c) := by unfold plainChar; infer_instance

def plainKey (s : String) : Prop := ∀ c ∈ s.data, plainChar c

instance (s : String) : Decidable (plainKey s) := by unfold plainKey; infer_instance

/-! ## JavaScript `Map` model

A `Map` is an insertion-ordered collection of key–value pairs with
distinct keys.  It is modelled as an association list in insertion
order; the operations below reproduce `Map.get`, `Map.delete` and
`Map.set` (which, per the ECMAScript specification, updates an existing
key in place without changing its position and appends a new key at
the end). -/

def mapGet {β : Type} (m : List (String × β)) (k : String) : Option β :=
  (m.find? (fun e => e.1 == k)).map (fun e => e.2)

def mapDelete {β : Type} (m : List (String × β)) (k : String) : List (String × β) :=
  m.filter (fun e => e.1 != k)

def mapSet {β : Type} : List (String × β) → String → β → List (String × β)
  | [], k, v => [(k, v)]
  | e :: t, k, v => if e.1 = k then (k, v) :: t else e :: mapSet t k v

/-! ## The memory backend (`LRUCache`) -/

structure MemoryCacheEntry where
  data : List Nat
  createdAt : Int
deriving DecidableEq, Repr

structure LRUCache where
  cache : List (String × MemoryCacheEntry)
  maxItems : Nat
deriving DecidableEq, Repr

/-- `LRUCache.get`: miss on absent key; lazily expire (delete, return
null) an entry older than `config.cacheTTL` seconds; on a hit, delete
and re-insert the entry to move it to the most-recently-used end and
return its bytes.  `now` is `Date.now()` in milliseconds. -/
def LRUCache.get (c : LRUCache) (cacheTTL : Nat) (now : Int) (key : String) :
    Option (List Nat) × LRUCache :=
  match mapGet c.cache key with
  | Option.none => (Option.none, c)
  | some entry =>
    if now - entry.createdAt > (cacheTTL : Int) * 1000 then
      (Option.none, LRUCache.mk (mapDelete c.cache key) c.maxItems)
    else
      (some entry.data,
        LRUCache.mk (mapSet (mapDelete c.cache key) key entry) c.maxItems)

/-- The `while (this.cache.size >= this.maxItems)` eviction loop of
`LRUCache.set`: repeatedly delete the first (least-recently-used) key;
an empty map makes `keys().next().value` undefined, which breaks the
loop. -/
def evictToCapacity (maxItems : Nat) :
    List (String × MemoryCacheEntry) → List (String × MemoryCacheEntry)
  | [] => []
  | e :: t => if maxItems ≤ (e :: t).length then evictToCapacity maxItems t else e :: t

/-- `LRUCache.set`: evict down below capacity, then `Map.set` the new
entry with `createdAt = Date.now()`. -/
def LRUCache.set (c : LRUCache) (now : Int) (key : String) (data : List Nat) : LRUCache :=
  LRUCache.mk (mapSet (evictToCapacity c.maxItems c.cache) key (MemoryCacheEntry.mk data now))
    c.maxItems

/-- `LRUCache.size`: `this.cache.size`. -/
def LRUCache.size (c : LRUCache) : Nat := c.cache.length

/-- A freshly constructed `new LRUCache(maxItems)`. -/
def emptyLRU (maxItems : Nat) : LRUCache := LRUCache.mk [] maxItems

/-- Folding `set` over a list of keys (`data` gives each key's bytes),
as a sequence of inserts into the backend. -/
def insertAll (c : LRUCache) (now : Int) (data : String → List Nat)
    (keys : List String) : LRUCache :=
  keys.foldl (fun acc k => acc.set now k (data k)) c

/-! ## The disk backend

The filesystem is modelled as an insertion-ordered association list
from absolute file path to file content plus modification time (in
milliseconds, as `stat.mtime.getTime()` reads it).  Directories are
implicit: `mkdir -p` tracks no state the cache ever reads. -/

structure DiskFile where
  data : List Nat
  mtime : Int
deriving DecidableEq, Repr

abbrev FileSystem := List (String × DiskFile)

/-- `node:path`'s `join` on the simple relative components this code
passes it. -/
def pathJoin (a b : String) : String := a ++ "/" ++ b

/-- `getCachePath`: `join(config.cacheDir, key.substring(0, 2), key)`. -/
def getCachePath (cacheDir key : String) : String :=
  pathJoin cacheDir (pathJoin (key.take 2) key)

/-- `getDiskCached`: miss when the file does not exist; return its
bytes while `now - mtime < config.cacheTTL * 1000`; otherwise schedule
a background `rm -f` (modelled as the deletion having completed) and
miss. -/
def getDiskCached (fs : FileSystem) (cacheDir : String) (cacheTTL : Nat) (now : Int)
    (key : String) : Option (List Nat) × FileSystem :=
  match mapGet fs (getCachePath cacheDir key) with
  | Option.none => (Option.none, fs)
  | some file =>
    if now - file.mtime < (cacheTTL : Int) * 1000 then (some file.data, fs)
    else (Option.none, mapDelete fs (getCachePath cacheDir key))

/-- `setDiskCache`: ensure the shard directory exists, then
`Bun.write(path, data)`, overwriting any existing file and stamping its
mtime with the current time.  (A write failure is logged and swallowed
in the source; the model follows the successful path the claims are
about.) -/
def setDiskCache (fs : FileSystem) (cacheDir : String) (now : Int) (key : String)
    (data : List Nat) : FileSystem :=
  mapSet fs (getCachePath cacheDir key) (DiskFile.mk data now)

/-- The file test of `find ${cacheDir} -type f -mmin +maxAgeMinutes`
with `maxAgeMinutes = Math.floor(config.cacheTTL / 60)`: a regular file
under the cache root whose age in whole minutes exceeds
`maxAgeMinutes` (`find` discards the fractional minute, so a file
matches only once `now - mtime ≥ (maxAgeMinutes + 1)` minutes). -/
def isExpiredFile (cacheDir : String) (cacheTTL : Nat) (now : Int)
    (e : String × DiskFile) : Bool :=
  (cacheDir ++ "/").data.isPrefixOf e.1.data &&
    ((now - e.2.mtime) / 60000 > ((cacheTTL / 60 : Nat) : Int))

/-- The disk branch of `cleanupCache`: list the expired files, then
`rm -f` each one, counting the successful deletions; a failed deletion
(`canDelete path = false`) is swallowed and the sweep continues with
the next file. -/
def cleanupDisk (fs : FileSystem) (cacheDir : String) (cacheTTL : Nat) (now : Int)
    (canDelete : String → Bool) : Nat × FileSystem :=
  let oldFiles := (fs.filter (isExpiredFile cacheDir cacheTTL now)).map Prod.fst
  oldFiles.foldl
    (fun acc path => if canDelete path then (acc.1 + 1, mapDelete acc.2 path) else acc)
    (0, fs)

/-! ## Configuration and the cache facade -/

/-- `CacheModeSchema` of `src/config.ts`: the union of the literals
`"disk" | "memory" | "hybrid" | "none"`. -/
inductive CacheMode where
  | disk
  | memory
  | hybrid
  | none
deriving DecidableEq, Repr

/-- The slice of the process-wide `config` object this core reads. -/
structure Config where
  cacheMode : CacheMode
  cacheDir : String
  cacheTTL : Nat
  maxMemoryCacheItems : Nat
  browserCacheTTL : Nat

/-- The mutable state the facade dispatches over: the module-level
`memoryCache` instance and the filesystem. -/
structure CacheState where
  memoryCache : LRUCache
  diskFS : FileSystem
deriving DecidableEq, Repr

/-- `getCached`: dispatch on `config.cacheMode`; `"none"` returns null,
and `"hybrid"` reaches the `default:` arm, which also returns null. -/
def getCached (cfg : Config) (st : CacheState) (now : Int) (key : String) :
    Option (List Nat) × CacheState :=
  match cfg.cacheMode with
  | .disk =>
    let r := getDiskCached st.diskFS cfg.cacheDir cfg.cacheTTL now key
    (r.1, CacheState.mk st.memoryCache r.2)
  | .memory =>
    let r := st.memoryCache.get cfg.cacheTTL now key
    (r.1, CacheState.mk r.2 st.diskFS)
  | .none => (Option.none, st)
  | .hybrid => (Option.none, st)

/-- `setCache`: dispatch on `config.cacheMode`; `"none"` returns
without writing, and `"hybrid"` matches no `case`, so the switch falls
through and nothing is mutated. -/
def setCache (cfg : Config) (st : CacheState) (now : Int) (key : String)
    (data : List Nat) : CacheState :=
  match cfg.cacheMode with
  | .disk => CacheState.mk st.memoryCache (setDiskCache st.diskFS cfg.cacheDir now key data)
  | .memory => CacheState.mk (st.memoryCache.set now key data) st.diskFS
  | .none => st
  | .hybrid => st

/-! ## Headers and stats -/

/-- The `MIME_TYPES` record. -/
def MIME_TYPES : List (String × String) :=
  [("webp", "image/webp"), ("avif", "image/avif"), ("png", "image/png"),
   ("jpg", "image/jpeg"), ("jpeg", "image/jpeg"), ("gif", "image/gif")]

/-- `getCacheHeaders(format)`: `MIME_TYPES[format] || "image/jpeg"`,
a browser cache-control directive built from `config.browserCacheTTL`,
and `Vary: Accept`. -/
def getCacheHeaders (cfg : Config) (format : String) : List (String × String) :=
  [("Content-Type", (mapGet MIME_TYPES format).getD "image/jpeg"),
   ("Cache-Control", "public, max-age=" ++ toString cfg.browserCacheTTL ++ ", immutable"),
   ("Vary", "Accept")]

/-- The shape `getCacheStats` returns: `{ mode, items?, directory? }`. -/
structure CacheStats where
  mode : CacheMode
  items : Option Nat
  directory : Option String
deriving DecidableEq, Repr

/-- `getCacheStats`: a switch over `config.cacheMode` with cases for
`"memory"`, `"disk"` and `"none"` only; `"hybrid"` matches none of
them, so the function returns undefined — modelled as `Option.none`. -/
def getCacheStats (cfg : Config) (st : CacheState) : Option CacheStats :=
  match cfg.cacheMode with
  | .memory => some (CacheStats.mk .memory (some st.memoryCache.size) Option.none)
  | .disk => some (CacheStats.mk .disk Option.none (some cfg.cacheDir))
  | .none => some (CacheStats.mk .none Option.none Option.none)
  | .hybrid => Option.none

/-! ## Properties of the collation order -/

theorem lexComp_self (l : List Nat) : lexComp l l = .eq := by
  induction l with
  | nil => rfl
  | cons a as ih => simp [lexComp, ih]

theorem lexComp_eq_iff : ∀ (l1 l2 : List Nat), lexComp l1 l2 = .eq ↔ l1 = l2 := by
  intro l1
  induction l1 with
  | nil => intro l2; cases l2 <;> simp [lexComp]
  | cons a as ih =>
    intro l2
    cases l2 with
    | nil => simp [lexComp]
    | cons b bs =>
      simp only [lexComp]
      by_cases hab : a < b
      · simp only [if_pos hab]
        constructor
        · intro h; exact absurd h (by simp)
        · intro h
          have : a = b := (List.cons.injEq .. ▸ h).1
          omega
      · by_cases hba : b < a
        · simp only [if_neg hab, if_pos hba]
          constructor
          · intro h; exact absurd h (by simp)
          · intro h
            have : a = b := (List.cons.injEq .. ▸ h).1
            omega
        · have hab2 : a = b := by omega
          subst hab2
          simp [if_neg hab, if_neg hba, ih]

theorem lexComp_gt_iff : ∀ (l1 l2 : List Nat), lexComp l1 l2 = .gt ↔ lexComp l2 l1 = .lt := by
  intro l1
  induction l1 with
  | nil => intro l2; cases l2 <;> simp [lexComp]
  | cons a as ih =>
    intro l2
    cases l2 with
    | nil => simp [lexComp]
    | cons b bs =>
      simp only [lexComp]
      by_cases hab : a < b
      · have hba : ¬ b < a := by omega
        simp [if_pos hab, if_neg hba]
      · by_cases hba : b < a
        · simp [if_neg hab, if_pos hba]
        · have hab2 : a = b := by omega
          subst hab2
          simp [if_neg hab, if_neg hba, ih]

theorem lexComp_trans_le : ∀ (l1 l2 l3 : List Nat),
    lexComp l1 l2 ≠ .gt → lexComp l2 l3 ≠ .gt → lexComp l1 l3 ≠ .gt := by
  intro l1
  induction l1 with
  | nil =>
    intro l2 l3 _ _
    cases l3 <;> simp [lexComp]
  | cons a as ih =>
    intro l2 l3 h1 h2
    cases l2 with
    | nil => simp [lexComp] at h1
    | cons b bs =>
      cases l3 with
      | nil => simp [lexComp] at h2
      | cons c cs =>
        simp only [lexComp] at h1 h2 ⊢
        by_cases hab : a < b
        · by_cases hbc : b < c
          · simp [if_pos (by omega : a < c)]
          · by_cases hcb : c < b
            · rw [if_neg hbc, if_pos hcb] at h2; exact absurd rfl h2
            · simp [if_pos (by omega : a < c)]
        · by_cases hba : b < a
          · rw [if_neg hab, if_pos hba] at h1; exact absurd rfl h1
          · have hab2 : a = b := by omega
            subst hab2
            rw [if_neg hab, if_neg hba] at h1
            by_cases hac : a < c
            · simp [if_pos hac]
            · by_cases hca : c < a
              · rw [if_neg hac, if_pos hca] at h2; exact absurd rfl h2
              · have hac2 : a = c := by omega
                subst hac2
                rw [if_neg hac, if_neg hca] at h2 ⊢
                exact ih bs cs h1 h2

/-- `lcLe a b` is exactly "the collation comparison is not `gt`". -/
theorem lcLe_iff (a b : String) : lcLe a b ↔ lexComp (collKey a) (collKey b) ≠ .gt := by
  unfold lcLe localeCompare
  cases h : lexComp (collKey a) (collKey b) <;> simp [h]

theorem char_toNat_inj {c d : Char} (h : c.toNat = d.toNat) : c = d :=
  Char.ext (UInt32.ext h)

theorem collChar_inj {c d : Char} (h1 : collPrim c = collPrim d)
    (h2 : collTert c = collTert d) : c = d := by
  unfold collPrim at h1
  unfold collTert at h2
  by_cases hc : 65 ≤ c.toNat ∧ c.toNat ≤ 90
  · by_cases hd : 65 ≤ d.toNat ∧ d.toNat ≤ 90
    · rw [if_pos hc, if_pos hd] at h1
      exact char_toNat_inj (by omega)
    · rw [if_pos hc, if_neg hd] at h2
      omega
  · by_cases hd : 65 ≤ d.toNat ∧ d.toNat ≤ 90
    · rw [if_neg hc, if_pos hd] at h2
      omega
    · rw [if_neg hc, if_neg hd] at h1
      exact char_toNat_inj (by omega)

theorem collPrim_ne_zero (c : Char) : collPrim c ≠ 0 := Nat.succ_ne_zero _

theorem append_sentinel_inj : ∀ (x y p q : List Nat),
    (∀ n ∈ x, n ≠ 0) → (∀ n ∈ y, n ≠ 0) → x ++ 0 :: p = y ++ 0 :: q →
    x = y ∧ p = q := by
  intro x
  induction x with
  | nil =>
    intro y p q _ hy h
    cases y with
    | nil => simpa using h
    | cons b ys =>
      simp only [List.nil_append, List.cons_append, List.cons.injEq] at h
      exact absurd h.1.symm (hy b (by simp))
  | cons a xs ih =>
    intro y p q hx hy h
    cases y with
    | nil =>
      simp only [List.nil_append, List.cons_append, List.cons.injEq] at h
      exact absurd h.1 (hx a (by simp))
    | cons b ys =>
      simp only [List.cons_append, List.cons.injEq] at h
      obtain ⟨hab, hrest⟩ := h
      obtain ⟨hxy, hpq⟩ := ih ys p q (fun n hn => hx n (by simp [hn]))
        (fun n hn => hy n (by simp [hn])) hrest
      exact ⟨by simp [hab, hxy], hpq⟩

theorem map_weights_inj : ∀ (l1 l2 : List Char),
    l1.map collPrim = l2.map collPrim → l1.map collTert = l2.map collTert → l1 = l2 := by
  intro l1
  induction l1 with
  | nil =>
    intro l2 h _
    cases l2 with
    | nil => rfl
    | cons d ds => simp at h
  | cons c cs ih =>
    intro l2 h1 h2
    cases l2 with
    | nil => simp at h1
    | cons d ds =>
      simp only [List.map_cons, List.cons.injEq] at h1 h2
      rw [collChar_inj h1.1 h2.1, ih ds h1.2 h2.2]

theorem collKey_inj {a b : String} (h : collKey a = collKey b) : a = b := by
  unfold collKey at h
  obtain ⟨h1, h2⟩ := append_sentinel_inj _ _ _ _
    (fun n hn => by
      obtain ⟨c, -, hc⟩ := List.mem_map.mp hn
      exact hc ▸ collPrim_ne_zero c)
    (fun n hn => by
      obtain ⟨c, -, hc⟩ := List.mem_map.mp hn
      exact hc ▸ collPrim_ne_zero c) h
  exact String.ext (map_weights_inj _ _ h1 h2)

theorem lcLe_total (a b : String) : lcLe a b ∨ lcLe b a := by
  rw [lcLe_iff, lcLe_iff]
  by_cases h : lexComp (collKey a) (collKey b) = .gt
  · right
    rw [lexComp_gt_iff] at h
    simp [h]
  · left; exact h

theorem lcLe_trans {a b c : String} (h1 : lcLe a b) (h2 : lcLe b c) : lcLe a c := by
  rw [lcLe_iff] at h1 h2 ⊢
  exact lexComp_trans_le _ _ _ h1 h2

theorem lcLe_antisymm {a b : String} (h1 : lcLe a b) (h2 : lcLe b a) : a = b := by
  rw [lcLe_iff] at h1 h2
  apply collKey_inj
  rw [← lexComp_eq_iff]
  cases h : lexComp (collKey a) (collKey b) with
  | eq => rfl
  | gt => exact absurd h h1
  | lt => rw [← lexComp_gt_iff] at h; exact absurd h h2

instance : IsTotal (String × JSValue) entryLe := ⟨fun p q => lcLe_total p.1 q.1⟩

instance : IsTrans (String × JSValue) entryLe :=
  ⟨fun _ _ _ h1 h2 => lcLe_trans h1 h2⟩

/-- Two entry lists that are permutations of each other, both sorted by
the comparator, with pairwise-distinct field names (as `Object.entries`
always yields), are equal: the sorted list is a canonical form. -/
theorem sorted_perm_nodupFst_eq : ∀ {l1 l2 : ParamSet}, List.Perm l1 l2 →
    l1.Sorted entryLe → l2.Sorted entryLe → (l1.map Prod.fst).Nodup → l1 = l2 := by
  intro l1
  induction l1 with
  | nil =>
    intro l2 hp _ _ _
    exact (hp.symm.eq_nil).symm
  | cons a t1 ih =>
    intro l2 hp hs1 hs2 hnd
    have hal2 : a ∈ l2 := hp.mem_iff.mp (by simp)
    cases l2 with
    | nil => simp at hal2
    | cons b t2 =>
      rw [List.sorted_cons] at hs1 hs2
      by_cases hab : a = b
      · subst hab
        rw [ih hp.cons_inv hs1.2 hs2.2 ((List.nodup_cons.mp hnd).2)]
      · have ha2 : a ∈ t2 := by
          rcases List.mem_cons.mp hal2 with h | h
          · exact absurd h hab
          · exact h
        have hba : entryLe b a := hs2.1 a ha2
        have hbl1 : b ∈ a :: t1 := hp.symm.mem_iff.mp (by simp)
        have hb1 : b ∈ t1 := by
          rcases List.mem_cons.mp hbl1 with h | h
          · exact absurd h.symm hab
          · exact h
        have hfst : a.1 = b.1 := lcLe_antisymm (hs1.1 b hb1) hba
        have : a.1 ∈ t1.map Prod.fst := hfst ▸ List.mem_map_of_mem Prod.fst hb1
        exact absurd this (List.nodup_cons.mp hnd).1

/-- The two serializations agree whenever the defined entries coincide
up to order: both sort to the same canonical list. -/
theorem serializeParams_perm {p1 p2 : ParamSet}
    (hnd : ((definedEntries p1).map Prod.fst).Nodup)
    (hperm : List.Perm (definedEntries p1) (definedEntries p2)) :
    serializeParams p1 = serializeParams p2 := by
  unfold serializeParams
  have h1 : (definedEntries p1).insertionSort entryLe =
      (definedEntries p2).insertionSort entryLe := by
    apply sorted_perm_nodupFst_eq
    · exact ((List.perm_insertionSort entryLe _).trans hperm).trans
        (List.perm_insertionSort entryLe _).symm
    · exact List.sorted_insertionSort entryLe _
    · exact List.sorted_insertionSort entryLe _
    · exact ((List.perm_insertionSort entryLe _).map Prod.fst).nodup_iff.mpr hnd
  rw [h1]

/-! ## Sorting is determined by how the comparator behaves on the list -/

theorem orderedInsert_congr {α : Type} {r s : α → α → Prop}
    [DecidableRel r] [DecidableRel s] (a : α) :
    ∀ (l : List α), (∀ b ∈ l, (r a b ↔ s a b)) →
    l.orderedInsert r a = l.orderedInsert s a := by
  intro l
  induction l with
  | nil => intro _; rfl
  | cons b t ih =>
    intro h
    simp only [List.orderedInsert]
    by_cases hr : r a b
    · rw [if_pos hr, if_pos ((h b (by simp)).mp hr)]
    · rw [if_neg hr, if_neg (fun hs => hr ((h b (by simp)).mpr hs)),
        ih (fun x hx => h x (by simp [hx]))]

theorem insertionSort_congr {α : Type} {r s : α → α → Prop}
    [DecidableRel r] [DecidableRel s] :
    ∀ (l : List α), (∀ a ∈ l, ∀ b ∈ l, (r a b ↔ s a b)) →
    l.insertionSort r = l.insertionSort s := by
  intro l
  induction l with
  | nil => intro _; rfl
  | cons a t ih =>
    intro h
    simp only [List.insertionSort]
    rw [ih (fun x hx y hy => h x (by simp [hx]) y (by simp [hy]))]
    apply orderedInsert_congr
    intro b hb
    have hbt : b ∈ t := (List.perm_insertionSort s t).mem_iff.mp hb
    exact h a (by simp) b (by simp [hbt])

/-! ## Where the collation order and byte-wise order coincide -/

theorem lexComp_append_sentinel : ∀ (x y p q : List Nat),
    (∀ n ∈ x, n ≠ 0) → (∀ n ∈ y, n ≠ 0) →
    lexComp (x ++ 0 :: p) (y ++ 0 :: q) = (lexComp x y).then (lexComp p q) := by
  intro x
  induction x with
  | nil =>
    intro y p q _ hy
    cases y with
    | nil => simp [lexComp, Ordering.then]
    | cons b ys =>
      have hb : 0 < b := Nat.pos_of_ne_zero (hy b (by simp))
      simp [lexComp, hb, Ordering.then]
  | cons a xs ih =>
    intro y p q hx hy
    cases y with
    | nil =>
      have ha : 0 < a := Nat.pos_of_ne_zero (hx a (by simp))
      simp [lexComp, ha, Nat.not_lt_of_lt, Ordering.then]
    | cons b ys =>
      simp only [List.cons_append, lexComp, List.append_eq]
      by_cases hab : a < b
      · simp [if_pos hab, Ordering.then]
      · by_cases hba : b < a
        · simp [if_neg hab, if_pos hba, Ordering.then]
        · rw [if_neg hab, if_neg hba, if_neg hab, if_neg hba,
            ih ys p q (fun n hn => hx n (by simp [hn])) (fun n hn => hy n (by simp [hn]))]

theorem lexComp_map_succ : ∀ (x y : List Nat),
    lexComp (x.map (· + 1)) (y.map (· + 1)) = lexComp x y := by
  intro x
  induction x with
  | nil => intro y; cases y <;> simp [lexComp]
  | cons a xs ih =>
    intro y
    cases y with
    | nil => simp [lexComp]
    | cons b ys =>
      simp only [List.map_cons, lexComp]
      by_cases hab : a < b
      · simp [if_pos hab, Nat.add_lt_add_right hab]
      · by_cases hba : b < a
        · rw [if_neg hab, if_pos hba, if_neg (by omega : ¬ a + 1 < b + 1),
            if_pos (by omega : b + 1 < a + 1)]
        · rw [if_neg hab, if_neg hba, if_neg (by omega : ¬ a + 1 < b + 1),
            if_neg (by omega : ¬ b + 1 < a + 1), ih]

theorem collKey_plain (s : String) (h : plainKey s) :
    collKey s = s.data.map (fun c => c.toNat + 1) ++ 0 :: s.data.map (fun _ => 1) := by
  unfold collKey
  have hnu : ∀ c ∈ s.data, ¬ (65 ≤ c.toNat ∧ c.toNat ≤ 90) := by
    intro c hc
    rcases h c hc with h1 | h1 <;> omega
  congr 1
  · apply List.map_congr_left
    intro c hc
    unfold collPrim
    rw [if_neg (hnu c hc)]
  · congr 1
    apply List.map_congr_left
    intro c hc
    unfold collTert
    rw [if_neg (hnu c hc)]

theorem lexComp_collKey_plain {a b : String} (ha : plainKey a) (hb : plainKey b) :
    lexComp (collKey a) (collKey b) = byteCmp a b := by
  rw [collKey_plain a ha, collKey_plain b hb]
  rw [lexComp_append_sentinel _ _ _ _
    (fun n hn => by
      obtain ⟨c, -, hc⟩ := List.mem_map.mp hn
      omega)
    (fun n hn => by
      obtain ⟨c, -, hc⟩ := List.mem_map.mp hn
      omega)]
  have hm : ∀ s : String, s.data.map (fun c => c.toNat + 1) =
      (s.data.map Char.toNat).map (· + 1) := by
    intro s
    rw [List.map_map]
    rfl
  rw [hm, hm, lexComp_map_succ]
  cases hcmp : byteCmp a b with
  | lt => unfold byteCmp at hcmp; rw [hcmp]; rfl
  | gt => unfold byteCmp at hcmp; rw [hcmp]; rfl
  | eq =>
    unfold byteCmp at hcmp
    rw [hcmp]
    have hdata : a.data = b.data := by
      have := lexComp_eq_iff _ _ |>.mp hcmp
      exact List.map_injective_iff.mpr (fun c d hcd => char_toNat_inj hcd) this
    rw [hdata, lexComp_self]
    rfl

/-- On field names of lowercase ASCII letters and digits, the source's
`localeCompare` order and the spec's byte-wise order agree. -/
theorem lcLe_iff_byteLe {a b : String} (ha : plainKey a) (hb : plainKey b) :
    lcLe a b ↔ byteLe a b := by
  rw [lcLe_iff]
  unfold byteLe
  rw [lexComp_collKey_plain ha hb]

/-! ## Behaviour of the `Map` operations -/

theorem mapGet_mapSet_self {β : Type} : ∀ (m : List (String × β)) (k : String) (v : β),
    mapGet (mapSet m k v) k = some v := by
  intro m k v
  induction m with
  | nil => simp [mapSet, mapGet]
  | cons e t ih =>
    simp only [mapSet]
    by_cases h : e.1 = k
    · rw [if_pos h]
      simp [mapGet]
    · rw [if_neg h]
      simp only [mapGet] at ih ⊢
      rw [List.find?_cons_of_neg _ (by simp [h])]
      exact ih

theorem mapGet_eq_none_iff {β : Type} : ∀ (m : List (String × β)) (k : String),
    mapGet m k = Option.none ↔ k ∉ m.map Prod.fst := by
  intro m k
  induction m with
  | nil => simp [mapGet]
  | cons e t ih =>
    by_cases h : e.1 = k
    · simp only [mapGet]
      rw [List.find?_cons_of_pos _ (by simp [h])]
      simp [h]
    · simp only [mapGet] at ih ⊢
      rw [List.find?_cons_of_neg _ (by simp [h])]
      simp [ih, Ne.symm h]

theorem mapGet_some_mem {β : Type} {m : List (String × β)} {k : String} {v : β}
    (h : mapGet m k = some v) : k ∈ m.map Prod.fst := by
  by_contra hk
  rw [← mapGet_eq_none_iff] at hk
  rw [h] at hk
  exact Option.noConfusion hk

theorem mapSet_fst_of_not_mem {β : Type} : ∀ (m : List (String × β)) (k : String) (v : β),
    k ∉ m.map Prod.fst → (mapSet m k v).map Prod.fst = m.map Prod.fst ++ [k] := by
  intro m k v
  induction m with
  | nil => intro _; rfl
  | cons e t ih =>
    intro h
    simp only [List.map_cons, List.mem_cons] at h
    push_neg at h
    rw [show mapSet (e :: t) k v = e :: mapSet t k v from
      if_neg (fun he => h.1 he.symm)]
    simp [ih h.2]

theorem mapSet_fst_of_mem {β : Type} : ∀ (m : List (String × β)) (k : String) (v : β),
    k ∈ m.map Prod.fst → (mapSet m k v).map Prod.fst = m.map Prod.fst := by
  intro m k v
  induction m with
  | nil => intro h; simp at h
  | cons e t ih =>
    intro h
    by_cases he : e.1 = k
    · rw [show mapSet (e :: t) k v = (k, v) :: t from if_pos he]
      simp [he]
    · simp only [List.map_cons, List.mem_cons] at h
      rcases h with h | h
      · exact absurd h.symm he
      · rw [show mapSet (e :: t) k v = e :: mapSet t k v from if_neg he]
        simp [ih h]

theorem mapSet_length_le {β : Type} : ∀ (m : List (String × β)) (k : String) (v : β),
    (mapSet m k v).length ≤ m.length + 1 := by
  intro m k v
  induction m with
  | nil => simp [mapSet]
  | cons e t ih =>
    by_cases he : e.1 = k
    · rw [show mapSet (e :: t) k v = (k, v) :: t from if_pos he]
      simp
    · rw [show mapSet (e :: t) k v = e :: mapSet t k v from if_neg he]
      simp only [List.length_cons]
      omega

theorem mapDelete_fst {β : Type} : ∀ (m : List (String × β)) (k : String),
    (mapDelete m k).map Prod.fst = (m.map Prod.fst).filter (fun x => x != k) := by
  intro m k
  induction m with
  | nil => rfl
  | cons e t ih =>
    unfold mapDelete at ih ⊢
    by_cases he : e.1 = k
    · have hb : (e.1 != k) = false := by simp [he]
      simp only [List.filter_cons, List.map_cons, hb, Bool.false_eq_true, if_false]
      exact ih
    · have hb : (e.1 != k) = true := by simp [he]
      simp only [List.filter_cons, List.map_cons, hb, if_true]
      simp [ih]

theorem not_mem_mapDelete_fst {β : Type} (m : List (String × β)) (k : String) :
    k ∉ (mapDelete m k).map Prod.fst := by
  rw [mapDelete_fst]
  intro h
  have := List.of_mem_filter h
  simp at this

theorem mapGet_mapDelete_self {β : Type} (m : List (String × β)) (k : String) :
    mapGet (mapDelete m k) k = Option.none := by
  rw [mapGet_eq_none_iff]
  exact not_mem_mapDelete_fst m k

theorem mapDelete_of_not_mem {β : Type} : ∀ {m : List (String × β)} {k : String},
    k ∉ m.map Prod.fst → mapDelete m k = m := by
  intro m k h
  unfold mapDelete
  apply List.filter_eq_self.mpr
  intro e he
  simp only [bne_iff_ne, ne_eq, decide_eq_true_eq]
  intro hek
  exact h (hek ▸ List.mem_map_of_mem Prod.fst he)

theorem length_mapDelete_of_nodup {β : Type} : ∀ (m : List (String × β)) (k : String),
    (m.map Prod.fst).Nodup → k ∈ m.map Prod.fst →
    (mapDelete m k).length = m.length - 1 := by
  intro m k
  induction m with
  | nil => intro _ h; simp at h
  | cons e t ih =>
    intro hnd hk
    simp only [List.map_cons, List.nodup_cons] at hnd
    by_cases he : e.1 = k
    · have hkt : k ∉ t.map Prod.fst := fun hmem => hnd.1 (he ▸ hmem)
      have hdel : mapDelete t k = t := mapDelete_of_not_mem hkt
      have hstep : mapDelete (e :: t) k = mapDelete t k := by
        unfold mapDelete
        rw [List.filter_cons]
        have hb : (e.1 != k) = false := by simp [he]
        simp [hb]
      rw [hstep, hdel]
      simp
    · simp only [List.map_cons, List.mem_cons] at hk
      rcases hk with hk | hk
      · exact absurd hk.symm he
      · have h1 : 1 ≤ t.length := by
          cases t with
          | nil => simp at hk
          | cons x xs => simp
        have hstep : mapDelete (e :: t) k = e :: mapDelete t k := by
          unfold mapDelete
          rw [List.filter_cons]
          have hb : (e.1 != k) = true := by simp [he]
          simp [hb]
        rw [hstep, List.length_cons, ih hnd.2 hk]
        simp only [List.length_cons]
        omega

/-! ## Behaviour of the memory backend -/

theorem evictToCapacity_of_lt (maxItems : Nat) :
    ∀ (m : List (String × MemoryCacheEntry)), m.length < maxItems →
    evictToCapacity maxItems m = m := by
  intro m h
  cases m with
  | nil => rfl
  | cons e t =>
    unfold evictToCapacity
    rw [if_neg (by omega : ¬ maxItems ≤ (e :: t).length)]

theorem evictToCapacity_of_eq (maxItems : Nat) :
    ∀ (m : List (String × MemoryCacheEntry)), 1 ≤ maxItems → m.length = maxItems →
    evictToCapacity maxItems m = m.tail := by
  intro m h1 h2
  cases m with
  | nil =>
    exfalso
    simp only [List.length_nil] at h2
    omega
  | cons e t =>
    unfold evictToCapacity
    rw [if_pos (by omega : maxItems ≤ (e :: t).length)]
    simp only [List.length_cons] at h2
    exact evictToCapacity_of_lt maxItems t (by omega)

/-- When the table is exactly at capacity, `set` evicts exactly the
head — the least-recently-used entry — and then inserts. -/
theorem lru_set_at_capacity (c : LRUCache) (now : Int) (k : String) (d : List Nat)
    (h1 : 1 ≤ c.maxItems) (h2 : c.cache.length = c.maxItems) :
    (c.set now k d).cache = mapSet c.cache.tail k (MemoryCacheEntry.mk d now) := by
  unfold LRUCache.set
  rw [evictToCapacity_of_eq c.maxItems c.cache h1 h2]

/-- `set` never pushes the table above capacity (the states reachable
from a fresh backend with `maxItems ≥ 1` always satisfy
`size ≤ maxItems`, so "holds at least N entries" means exactly N). -/
theorem lru_set_capacity_le (c : LRUCache) (now : Int) (k : String) (d : List Nat)
    (h1 : 1 ≤ c.maxItems) (h2 : c.cache.length ≤ c.maxItems) :
    (c.set now k d).cache.length ≤ c.maxItems := by
  unfold LRUCache.set
  by_cases heq : c.cache.length = c.maxItems
  · rw [evictToCapacity_of_eq _ _ h1 heq]
    dsimp only
    have hle := mapSet_length_le c.cache.tail k (MemoryCacheEntry.mk d now)
    have htail : c.cache.tail.length = c.cache.length - 1 := List.length_tail _
    omega
  · rw [evictToCapacity_of_lt _ _ (by omega)]
    dsimp only
    have hle := mapSet_length_le c.cache k (MemoryCacheEntry.mk d now)
    omega

/-- Inserting fresh, pairwise-distinct keys while below capacity
appends them in order and keeps the capacity bound. -/
theorem insertAll_fresh : ∀ (ks : List String) (c : LRUCache) (now : Int)
    (data : String → List Nat),
    c.cache.length + ks.length ≤ c.maxItems →
    (∀ k ∈ ks, k ∉ c.cache.map Prod.fst) → ks.Nodup →
    (insertAll c now data ks).cache.map Prod.fst = c.cache.map Prod.fst ++ ks ∧
    (insertAll c now data ks).maxItems = c.maxItems := by
  intro ks
  induction ks with
  | nil => intro c now data _ _ _; exact ⟨by simp [insertAll], rfl⟩
  | cons k ks ih =>
    intro c now data hlen hfresh hnd
    have hmax : c.cache.length < c.maxItems := by
      simp only [List.length_cons] at hlen
      omega
    have hkc : k ∉ c.cache.map Prod.fst := hfresh k (by simp)
    have hset_cache : (c.set now k (data k)).cache
        = mapSet c.cache k (MemoryCacheEntry.mk (data k) now) := by
      unfold LRUCache.set
      rw [evictToCapacity_of_lt _ _ hmax]
    have hset_fst : (c.set now k (data k)).cache.map Prod.fst
        = c.cache.map Prod.fst ++ [k] := by
      rw [hset_cache]
      exact mapSet_fst_of_not_mem _ _ _ hkc
    have hset_max : (c.set now k (data k)).maxItems = c.maxItems := rfl
    have hset_len : (c.set now k (data k)).cache.length = c.cache.length + 1 := by
      have hlenmap := congrArg List.length hset_fst
      simpa using hlenmap
    have hstep : insertAll c now data (k :: ks)
        = insertAll (c.set now k (data k)) now data ks := rfl
    rw [hstep]
    obtain ⟨ha, hb⟩ := ih (c.set now k (data k)) now data
      (by
        rw [hset_len, hset_max]
        simp only [List.length_cons] at hlen
        omega)
      (by
        intro x hx
        rw [hset_fst]
        simp only [List.mem_append, List.mem_singleton]
        push_neg
        exact ⟨hfresh x (by simp [hx]),
          fun hxk => (List.nodup_cons.mp hnd).1 (hxk ▸ hx)⟩)
      ((List.nodup_cons.mp hnd).2)
    refine ⟨?_, by rw [hb, hset_max]⟩
    rw [ha, hset_fst]
    simp

/-! ## Claim theorems -/



/-- C1: two parameter sets whose defined entries agree up to insertion
order (the same field names with the same defined values, differing
only in order or in entries whose value is undefined — `Object.entries`
never repeats a field name, whence the `Nodup` hypothesis) get the same
cache key from `generateCacheKey`, whatever the digest function; in
particular the spec's two examples
`generateKey({w:800,url:"x"}) == generateKey({url:"x",w:800})` and
`generateKey({url:"x",h:undefined}) == generateKey({url:"x"})` hold. -/
theorem C1_generateCacheKey_order_undef_invariant
    (sha256hex : String → String) (p1 p2 : ParamSet)
    (hnd : ((definedEntries p1).map Prod.fst).Nodup)
    (hperm : List.Perm (definedEntries p1) (definedEntries p2)) :
    generateCacheKey sha256hex p1 = generateCacheKey sha256hex p2 ∧
    generateCacheKey sha256hex [("w", JSValue.num 800), ("url", JSValue.str "x")] =
      generateCacheKey sha256hex [("url", JSValue.str "x"), ("w", JSValue.num 800)] ∧
    generateCacheKey sha256hex [("url", JSValue.str "x"), ("h", JSValue.undef)] =
      generateCacheKey sha256hex [("url", JSValue.str "x")] := by
  refine ⟨congrArg sha256hex (serializeParams_perm hnd hperm),
    congrArg sha256hex ?_, congrArg sha256hex ?_⟩ <;> decide

/-- Witness for C1 at the spec's own example: the hypotheses hold for
`{w:800,url:"x"}` against `{url:"x",w:800}` and the keys agree. -/
theorem C1_witness :
    generateCacheKey id [("w", JSValue.num 800), ("url", JSValue.str "x")] =
      generateCacheKey id [("url", JSValue.str "x"), ("w", JSValue.num 800)] :=
  (C1_generateCacheKey_order_undef_invariant id
    [("w", JSValue.num 800), ("url", JSValue.str "x")]
    [("url", JSValue.str "x"), ("w", JSValue.num 800)]
    (by decide) (by decide)).1

/-- C2 counterexample: the string `generateCacheKey` hashes is NOT
sorted byte-wise.  With field names `"B"` and `"a"`, `"B"` is the
byte-smaller name (`byteCmp "B" "a" = lt`), so the claim requires the
serialization `"B=1&a=2"` (what `specSerialize`, the spec's byte-wise
reading, produces); the source's `localeCompare` sort instead produces
`"a=2&B=1"`, with the byte-greater name first. -/
theorem C2_counterexample :
    serializeParams [("B", JSValue.num 1), ("a", JSValue.num 2)] = "a=2&B=1" ∧
    specSerialize [("B", JSValue.num 1), ("a", JSValue.num 2)] = "B=1&a=2" ∧
    byteCmp "B" "a" = Ordering.lt ∧
    serializeParams [("B", JSValue.num 1), ("a", JSValue.num 2)] ≠
      specSerialize [("B", JSValue.num 1), ("a", JSValue.num 2)] := by
  refine ⟨by decide, by decide, by decide, by decide⟩

/-- C2 (amended): the hashed string drops undefined-valued fields,
sorts the remaining entries by the `localeCompare` collation — not
byte-wise — and joins `name=value` pairs with `&`.  The byte-wise
ascending order the spec states is recovered exactly when the defined
field names consist of lowercase ASCII letters and digits; names
outside that shape, such as the OG route's `titleColor` or the image
route's `wm_image`, carry no such guarantee (the `"B"`/`"a"`
counterexample shows how the two orders diverge).  Stated as: under
that restriction on the names, the source's serialization equals the
spec's byte-wise one. -/
theorem C2_amended_serialization (params : ParamSet)
    (h : ∀ e ∈ definedEntries params, plainKey e.1) :
    serializeParams params = specSerialize params := by
  unfold serializeParams specSerialize
  have hs : (definedEntries params).insertionSort entryLe =
      (definedEntries params).insertionSort specEntryLe :=
    @insertionSort_congr _ entryLe specEntryLe _ _ (definedEntries params)
      (fun a ha b hb => lcLe_iff_byteLe (h a ha) (h b hb))
  rw [hs]

/-- Witness for C2 (amended) at `{url:"x", w:800, h:undefined}`: the
name hypothesis holds and the two serializations agree. -/
theorem C2_amended_witness :
    serializeParams [("url", JSValue.str "x"), ("w", JSValue.num 800), ("h", JSValue.undef)] =
      specSerialize [("url", JSValue.str "x"), ("w", JSValue.num 800), ("h", JSValue.undef)] :=
  C2_amended_serialization
    [("url", JSValue.str "x"), ("w", JSValue.num 800), ("h", JSValue.undef)]
    (by decide)

/-- C3: with the memory backend at its configured capacity `N ≥ 1`
(reachable states never exceed it, by `lru_set_capacity_le`), `set`
evicts exactly the single least-recently-used entry — the head of the
insertion/access order — before inserting; consequently inserting `N+1`
pairwise-distinct keys into a fresh backend of capacity
`N = (k0 :: ks).length` leaves exactly the last `N` keys present and
only the first-inserted (least-recently-touched) key `k0` absent. -/
theorem C3_memory_lru_eviction :
    (∀ (c : LRUCache) (now : Int) (k : String) (d : List Nat),
      1 ≤ c.maxItems → c.cache.length = c.maxItems →
      (c.set now k d).cache = mapSet c.cache.tail k (MemoryCacheEntry.mk d now)) ∧
    (∀ (k0 klast : String) (ks : List String) (now : Int) (data : String → List Nat),
      (k0 :: ks ++ [klast]).Nodup →
      (insertAll (emptyLRU (k0 :: ks).length) now data
          (k0 :: ks ++ [klast])).cache.map Prod.fst = ks ++ [klast]) := by
  constructor
  · exact fun c now k d h1 h2 => lru_set_at_capacity c now k d h1 h2
  · intro k0 klast ks now data hnd
    have hsplit : k0 :: ks ++ [klast] = (k0 :: ks) ++ [klast] := by simp
    have hnd1 : (k0 :: ks).Nodup := by
      apply List.Nodup.sublist _ (hsplit ▸ hnd)
      exact List.sublist_append_left _ _
    have hstep1 := insertAll_fresh (k0 :: ks) (emptyLRU (k0 :: ks).length) now data
      (by simp [emptyLRU]) (by simp [emptyLRU]) hnd1
    set c1 := insertAll (emptyLRU (k0 :: ks).length) now data (k0 :: ks) with hc1
    obtain ⟨hfst1, hmax1⟩ := hstep1
    simp only [emptyLRU] at hfst1 hmax1
    simp only [List.map_nil, List.nil_append] at hfst1
    have hlen1 : c1.cache.length = (k0 :: ks).length := by
      have := congrArg List.length hfst1
      simpa using this
    have happ : insertAll (emptyLRU (k0 :: ks).length) now data (k0 :: ks ++ [klast])
        = c1.set now klast (data klast) := by
      rw [hsplit, hc1]
      unfold insertAll
      rw [List.foldl_append]
      rfl
    rw [happ, lru_set_at_capacity c1 now klast (data klast)
      (by rw [hmax1]; simp) (by rw [hlen1, hmax1])]
    cases hcache : c1.cache with
    | nil =>
      rw [hcache] at hfst1
      simp at hfst1
    | cons e0 rest =>
      rw [hcache] at hfst1
      simp only [List.map_cons, List.cons.injEq] at hfst1
      have hklast : klast ∉ ks := by
        have hnd2 : (ks ++ [klast]).Nodup := (List.nodup_cons.mp hnd).2
        have := (List.nodup_append.mp hnd2).2.2
        intro hmem
        exact this hmem (by simp)
      simp only [List.tail_cons]
      rw [mapSet_fst_of_not_mem _ _ _ (by rw [hfst1.2]; exact hklast), hfst1.2]

/-- Witness for C3: capacity 2, inserting the three distinct keys
`a, b, c` leaves exactly `b, c` present, and `a` — the
least-recently-touched — absent. -/
theorem C3_witness :
    (insertAll (emptyLRU 2) 0 (fun _ => [1]) ["a", "b", "c"]).cache.map Prod.fst
      = ["b", "c"] := by
  have h := C3_memory_lru_eviction.2 "a" "c" ["b"] 0 (fun _ => [1]) (by decide)
  simpa using h

/-- C4 counterexample: the claim says `set` of a key already present
moves that entry to the most-recently-used end.  It does not:
`Map.prototype.set` updates an existing key in place.  With the table
`[a, b]` (capacity 3, so no eviction), `set("a", ...)` leaves the
order `[a, b]` — were the entry moved to the most-recent end the order
would be `[b, a]` — so a subsequent capacity eviction would still
evict `a` first despite `a` being the most recently written. -/
theorem C4_counterexample :
    ((LRUCache.mk [("a", MemoryCacheEntry.mk [1] 0), ("b", MemoryCacheEntry.mk [2] 0)] 3).set
        5 "a" [9]).cache.map Prod.fst = ["a", "b"] ∧
    (["a", "b"] : List String) ≠ ["b", "a"] := by decide

/-- C4 (amended): the recency order used for eviction is the map's
insertion/access order; a lookup hit moves the entry to the
most-recently-used end, and `set` of a key not yet present appends it
at that end — but `set` of a key already present (below capacity)
updates the stored entry in place, keeping the key's old position. -/
theorem C4_amended_recency_order :
    (∀ (c : LRUCache) (ttl : Nat) (now : Int) (k : String) (e : MemoryCacheEntry),
      mapGet c.cache k = some e → now - e.createdAt ≤ (ttl : Int) * 1000 →
      ((c.get ttl now k).2).cache.map Prod.fst
        = ((c.cache.map Prod.fst).filter (fun x => x != k)) ++ [k]) ∧
    (∀ (c : LRUCache) (now : Int) (k : String) (d : List Nat),
      k ∉ c.cache.map Prod.fst → c.cache.length < c.maxItems →
      (c.set now k d).cache.map Prod.fst = c.cache.map Prod.fst ++ [k]) ∧
    (∀ (c : LRUCache) (now : Int) (k : String) (d : List Nat),
      k ∈ c.cache.map Prod.fst → c.cache.length < c.maxItems →
      (c.set now k d).cache.map Prod.fst = c.cache.map Prod.fst ∧
      mapGet (c.set now k d).cache k = some (MemoryCacheEntry.mk d now)) := by
  refine ⟨?_, ?_, ?_⟩
  · intro c ttl now k e hget hfresh
    unfold LRUCache.get
    rw [hget]
    dsimp only
    rw [if_neg (by omega : ¬ now - e.createdAt > (ttl : Int) * 1000)]
    dsimp only
    rw [mapSet_fst_of_not_mem _ _ _ (not_mem_mapDelete_fst _ _), mapDelete_fst]
  · intro c now k d hk hlen
    unfold LRUCache.set
    rw [evictToCapacity_of_lt _ _ hlen]
    exact mapSet_fst_of_not_mem _ _ _ hk
  · intro c now k d hk hlen
    unfold LRUCache.set
    rw [evictToCapacity_of_lt _ _ hlen]
    exact ⟨mapSet_fst_of_mem _ _ _ hk, mapGet_mapSet_self _ _ _⟩

/-- Witness for C4 (amended): a fresh lookup hit on `a` in the table
`[a, b]` moves `a` to the most-recently-used end, giving `[b, a]`. -/
theorem C4_amended_witness :
    (((LRUCache.mk [("a", MemoryCacheEntry.mk [1] 0), ("b", MemoryCacheEntry.mk [2] 0)] 3).get
        10 1 "a").2).cache.map Prod.fst = ["b", "a"] := by
  rw [C4_amended_recency_order.1
    (LRUCache.mk [("a", MemoryCacheEntry.mk [1] 0), ("b", MemoryCacheEntry.mk [2] 0)] 3)
    10 1 "a" (MemoryCacheEntry.mk [1] 0) (by decide) (by decide)]
  decide

/-- C5: a memory-backend `get` of an entry whose age `now - createdAt`
strictly exceeds `cacheTTL` seconds returns absent, removes the entry,
and shrinks the table by one (field names are distinct in a `Map`,
whence the `Nodup` hypothesis); an entry whose age does not exceed the
TTL is a hit returning its stored bytes. -/
theorem C5_memory_expiry
    (c : LRUCache) (ttl : Nat) (now : Int) (k : String) (e : MemoryCacheEntry)
    (hnd : (c.cache.map Prod.fst).Nodup) (hget : mapGet c.cache k = some e) :
    (now - e.createdAt > (ttl : Int) * 1000 →
      (c.get ttl now k).1 = Option.none ∧
      ((c.get ttl now k).2).cache.length = c.cache.length - 1 ∧
      mapGet ((c.get ttl now k).2).cache k = Option.none) ∧
    (now - e.createdAt ≤ (ttl : Int) * 1000 → (c.get ttl now k).1 = some e.data) := by
  constructor
  · intro hexp
    unfold LRUCache.get
    rw [hget]
    dsimp only
    rw [if_pos hexp]
    dsimp only
    exact ⟨rfl, length_mapDelete_of_nodup _ _ hnd (mapGet_some_mem hget),
      mapGet_mapDelete_self _ _⟩
  · intro hfresh
    unfold LRUCache.get
    rw [hget]
    dsimp only
    rw [if_neg (by omega : ¬ now - e.createdAt > (ttl : Int) * 1000)]

/-- Witness for C5: a single entry created at time 0 with a 10-second
TTL, queried at 10001 ms, is absent and the table shrinks to empty;
queried at 10000 ms it is still a hit. -/
theorem C5_witness :
    ((LRUCache.mk [("a", MemoryCacheEntry.mk [7] 0)] 5).get 10 10001 "a").1 = Option.none ∧
    (((LRUCache.mk [("a", MemoryCacheEntry.mk [7] 0)] 5).get 10 10001 "a").2).cache.length = 0 ∧
    ((LRUCache.mk [("a", MemoryCacheEntry.mk [7] 0)] 5).get 10 10000 "a").1 = some [7] := by
  have h := C5_memory_expiry (LRUCache.mk [("a", MemoryCacheEntry.mk [7] 0)] 5)
    10 10001 "a" (MemoryCacheEntry.mk [7] 0) (by decide) (by decide)
  have h2 := C5_memory_expiry (LRUCache.mk [("a", MemoryCacheEntry.mk [7] 0)] 5)
    10 10000 "a" (MemoryCacheEntry.mk [7] 0) (by decide) (by decide)
  obtain ⟨ha, hb, -⟩ := h.1 (by decide)
  exact ⟨ha, by simpa using hb, h2.2 (by decide)⟩

/-! ## Behaviour of the disk sweep -/

theorem filter_map_fst {β : Type} (canDelete : String → Bool) : ∀ (l : List (String × β)),
    (l.map Prod.fst).filter canDelete = (l.filter (fun e => canDelete e.1)).map Prod.fst := by
  intro l
  induction l with
  | nil => rfl
  | cons e t ih =>
    rw [List.map_cons, List.filter_cons, List.filter_cons]
    by_cases hp : canDelete e.1 = true
    · simp only [hp, if_true, List.map_cons, ih]
    · simp only [Bool.not_eq_true] at hp
      simp only [hp, Bool.false_eq_true, if_false, ih]

/-- What the `rm -f` loop of the disk sweep computes: the count of the
listed files the deletion succeeds on, and the filesystem with exactly
those files removed; a failed deletion is skipped without stopping the
loop. -/
theorem cleanup_foldl_char (canDelete : String → Bool) : ∀ (paths : List String)
    (g : FileSystem) (n : Nat),
    List.foldl (fun acc path => if canDelete path then (acc.1 + 1, mapDelete acc.2 path) else acc)
        (n, g) paths
      = (n + (paths.filter canDelete).length,
         g.filter (fun e => !((paths.filter canDelete).contains e.1))) := by
  intro paths
  induction paths with
  | nil =>
    intro g n
    simp [List.filter]
  | cons p ps ih =>
    intro g n
    rw [List.foldl_cons]
    by_cases hp : canDelete p = true
    · rw [if_pos hp]
      dsimp only
      rw [ih]
      have hfc : (p :: ps).filter canDelete = p :: ps.filter canDelete := by
        rw [List.filter_cons, if_pos hp]
      rw [hfc]
      simp only [Prod.mk.injEq]
      constructor
      · simp only [List.length_cons]
        omega
      · unfold mapDelete
        rw [List.filter_filter]
        apply List.filter_congr
        intro e he
        simp only [bne, List.contains_cons, Bool.not_or]
        exact Bool.and_comm _ _
    · rw [if_neg hp]
      rw [ih]
      have hfc : (p :: ps).filter canDelete = ps.filter canDelete := by
        rw [List.filter_cons, if_neg hp]
      rw [hfc]

/-- C6: on the disk backend, a `set` followed by a `get` of the same
key before the TTL has elapsed (nothing deleted in between) returns the
identical bytes, and the file sits at `root/shard/key` with the shard
being the key's first two characters. -/
theorem C6_disk_round_trip (fs : FileSystem) (cacheDir : String) (ttl : Nat)
    (t1 t2 : Int) (key : String) (data : List Nat)
    (h : t2 - t1 < (ttl : Int) * 1000) :
    (getDiskCached (setDiskCache fs cacheDir t1 key data) cacheDir ttl t2 key).1
      = some data ∧
    mapGet (setDiskCache fs cacheDir t1 key data)
        (cacheDir ++ "/" ++ (key.take 2 ++ "/" ++ key)) = some (DiskFile.mk data t1) := by
  have hpath : mapGet (setDiskCache fs cacheDir t1 key data) (getCachePath cacheDir key)
      = some (DiskFile.mk data t1) := mapGet_mapSet_self _ _ _
  constructor
  · unfold getDiskCached
    rw [hpath]
    dsimp only
    rw [if_pos (show t2 - (DiskFile.mk data t1).mtime < (ttl : Int) * 1000 from h)]
  · exact hpath

/-- Witness for C6: writing `[7, 8]` under key `abcd` at time 0 and
reading it back at 9999 ms with a 10-second TTL yields the same bytes,
from the sharded path `./cache/ab/abcd`. -/
theorem C6_witness :
    (getDiskCached (setDiskCache [] "./cache" 0 "abcd" [7, 8]) "./cache" 10 9999 "abcd").1
      = some [7, 8] :=
  (C6_disk_round_trip [] "./cache" 10 0 9999 "abcd" [7, 8] (by decide)).1

/-- C8: in cache mode `none`, `getCached` returns absent for every key
and every state — in particular regardless of prior `setCache` calls,
since `setCache` returns the state unchanged, creating nothing in
memory or on disk. -/
theorem C8_mode_none
    (cfg : Config) (st : CacheState) (now : Int) (key : String) (data : List Nat)
    (h : cfg.cacheMode = CacheMode.none) :
    getCached cfg st now key = (Option.none, st) ∧
    setCache cfg st now key data = st := by
  unfold getCached setCache
  rw [h]
  exact ⟨rfl, rfl⟩

/-- Witness for C8: a concrete `none`-mode configuration misses on a
key that was just written, and the write left the state untouched. -/
theorem C8_witness :
    getCached (Config.mk CacheMode.none "./cache" 86400 1000 31536000)
        (setCache (Config.mk CacheMode.none "./cache" 86400 1000 31536000)
          (CacheState.mk (emptyLRU 1000) []) 0 "k" [1]) 5 "k"
      = (Option.none, CacheState.mk (emptyLRU 1000) []) := by
  have hset := (C8_mode_none (Config.mk CacheMode.none "./cache" 86400 1000 31536000)
    (CacheState.mk (emptyLRU 1000) []) 0 "k" [1] rfl).2
  rw [hset]
  exact (C8_mode_none (Config.mk CacheMode.none "./cache" 86400 1000 31536000)
    (CacheState.mk (emptyLRU 1000) []) 5 "k" [1] rfl).1

/-- C9: `getCacheHeaders` maps `jpg` and `jpeg` to `image/jpeg`, maps
`webp`/`avif`/`png`/`gif` to their image MIME types, falls back to
`image/jpeg` on any unrecognized format, and always sends
`Cache-Control: public, max-age=<browser TTL>, immutable` and
`Vary: Accept`. -/
theorem C9_cache_headers (cfg : Config) :
    mapGet (getCacheHeaders cfg "jpg") "Content-Type" = some "image/jpeg" ∧
    mapGet (getCacheHeaders cfg "jpeg") "Content-Type" = some "image/jpeg" ∧
    mapGet (getCacheHeaders cfg "webp") "Content-Type" = some "image/webp" ∧
    mapGet (getCacheHeaders cfg "avif") "Content-Type" = some "image/avif" ∧
    mapGet (getCacheHeaders cfg "png") "Content-Type" = some "image/png" ∧
    mapGet (getCacheHeaders cfg "gif") "Content-Type" = some "image/gif" ∧
    (∀ format : String, format ∉ MIME_TYPES.map Prod.fst →
      mapGet (getCacheHeaders cfg format) "Content-Type" = some "image/jpeg") ∧
    (∀ format : String,
      mapGet (getCacheHeaders cfg format) "Cache-Control"
        = some ("public, max-age=" ++ toString cfg.browserCacheTTL ++ ", immutable") ∧
      mapGet (getCacheHeaders cfg format) "Vary" = some "Accept") := by
  refine ⟨rfl, rfl, rfl, rfl, rfl, rfl, ?_, ?_⟩
  · intro format hf
    have hmiss : mapGet MIME_TYPES format = Option.none := (mapGet_eq_none_iff _ _).mpr hf
    unfold getCacheHeaders
    rw [hmiss]
    rfl
  · intro format
    exact ⟨rfl, rfl⟩

/-- Witness for C9: the fallback arm at the unrecognized format
`"bmp"`, with a concrete configuration. -/
theorem C9_witness :
    mapGet (getCacheHeaders (Config.mk CacheMode.disk "./cache" 86400 1000 31536000) "bmp")
        "Content-Type" = some "image/jpeg" :=
  (C9_cache_headers (Config.mk CacheMode.disk "./cache" 86400 1000 31536000)).2.2.2.2.2.2.1
    "bmp" (by decide)

/-- C10: `"hybrid"` is a fourth member of the configuration's cache
mode union, distinct from the spec's `disk`/`memory`/`none`; under it
`getCached` always misses and `setCache` changes nothing (exactly the
`none` behaviour), while `getCacheStats` matches no switch case and so
returns no stats value at all (undefined). -/
theorem C10_hybrid_mode
    (cfg : Config) (st : CacheState) (now : Int) (key : String) (data : List Nat)
    (h : cfg.cacheMode = CacheMode.hybrid) :
    getCached cfg st now key = (Option.none, st) ∧
    setCache cfg st now key data = st ∧
    getCacheStats cfg st = Option.none ∧
    CacheMode.hybrid ≠ CacheMode.disk ∧ CacheMode.hybrid ≠ CacheMode.memory ∧
    CacheMode.hybrid ≠ CacheMode.none := by
  unfold getCached setCache getCacheStats
  rw [h]
  exact ⟨rfl, rfl, rfl, by decide, by decide, by decide⟩

/-- Witness for C10: a concrete `hybrid` configuration misses on every
read, writes nothing, and yields no stats. -/
theorem C10_witness :
    getCached (Config.mk CacheMode.hybrid "./cache" 86400 1000 31536000)
        (CacheState.mk (emptyLRU 1000) []) 0 "k"
      = (Option.none, CacheState.mk (emptyLRU 1000) []) ∧
    getCacheStats (Config.mk CacheMode.hybrid "./cache" 86400 1000 31536000)
        (CacheState.mk (emptyLRU 1000) []) = Option.none := by
  have h := C10_hybrid_mode (Config.mk CacheMode.hybrid "./cache" 86400 1000 31536000)
    (CacheState.mk (emptyLRU 1000) []) 0 "k" [1] rfl
  exact ⟨h.1, h.2.2.1⟩

/-- C7 counterexample: the sweep's `find -mmin +⌊ttl/60⌋` test works at
whole-minute granularity.  With the default `ttl = 86400` s, a file
86430 s old has its modification time older than `now − ttl` (by 30 s),
so the claim requires `cleanup()` to delete it and count it; the code
leaves it in place and returns 0 (its age in whole minutes, 1440, does
not exceed `⌊86400/60⌋ = 1440`). -/
theorem C7_counterexample :
    (86430000 : Int) - 0 > 86400 * 1000 ∧
    cleanupDisk [("./cache/ab/k1", DiskFile.mk [1] 0)] "./cache" 86400 86430000
        (fun _ => true) = (0, [("./cache/ab/k1", DiskFile.mk [1] 0)]) ∧
    (0 : Nat) ≠ 1 := by decide

/-- C7 (amended): `cleanup()` deletes exactly the regular files under
the cache root whose age in whole minutes strictly exceeds
`⌊ttl/60⌋` — i.e. with modification time older than `now` by at least
`⌊ttl/60⌋ + 1` minutes — and on which deletion succeeds; per-file
deletion failures are skipped without aborting the sweep (a failed
file stays, later files are still processed), and the returned count
is the number of files successfully removed.  Paths in a filesystem
are distinct, whence the `Nodup` hypothesis. -/
theorem C7_amended_disk_cleanup (fs : FileSystem) (cacheDir : String) (ttl : Nat)
    (now : Int) (canDelete : String → Bool) (hnd : (fs.map Prod.fst).Nodup) :
    (cleanupDisk fs cacheDir ttl now canDelete).1
      = (fs.filter (fun e => isExpiredFile cacheDir ttl now e && canDelete e.1)).length ∧
    (cleanupDisk fs cacheDir ttl now canDelete).2
      = fs.filter (fun e => !(isExpiredFile cacheDir ttl now e && canDelete e.1)) := by
  have hdel : ((fs.filter (isExpiredFile cacheDir ttl now)).map Prod.fst).filter canDelete
      = (fs.filter (fun e => isExpiredFile cacheDir ttl now e && canDelete e.1)).map
          Prod.fst := by
    rw [filter_map_fst]
    congr 1
    rw [List.filter_filter]
    apply List.filter_congr
    intro e he
    exact Bool.and_comm _ _
  unfold cleanupDisk
  dsimp only
  rw [cleanup_foldl_char]
  dsimp only
  rw [hdel]
  constructor
  · simp
  · apply List.filter_congr
    intro e he
    congr 1
    rw [Bool.eq_iff_iff]
    constructor
    · intro hc
      obtain ⟨x, hxmem, hxfst⟩ := List.mem_map.mp (List.elem_iff.mp hc)
      obtain ⟨hxfs, hxq⟩ := List.mem_filter.mp hxmem
      have hxe : x = e := List.inj_on_of_nodup_map hnd hxfs he hxfst
      rw [← hxe]
      exact hxq
    · intro hq
      exact List.elem_iff.mpr (List.mem_map_of_mem Prod.fst (List.mem_filter.mpr ⟨he, hq⟩))

/-- Witness for C7 (amended): two files with distinct paths, one
1441 whole minutes old (deleted and counted) and one a minute old
(kept). -/
theorem C7_amended_witness :
    (cleanupDisk [("./cache/ab/k1", DiskFile.mk [1] 0),
        ("./cache/cd/k2", DiskFile.mk [2] 86400000)]
        "./cache" 86400 86460000 (fun _ => true)).1 = 1 := by
  have h := C7_amended_disk_cleanup [("./cache/ab/k1", DiskFile.mk [1] 0),
    ("./cache/cd/k2", DiskFile.mk [2] 86400000)]
    "./cache" 86400 86460000 (fun _ => true) (by decide)
  rw [h.1]
  decide

end PixelServe
